import Mathlib

/-!
Shallow embedding of the rich-text editor core from
`src/components/RichTextEditor.tsx` (the converged snapshot): the document is a
`List Char`, the cursor a pair of integers, and `reducer` is the state
transition.  Offsets and cursor coordinates are modelled as `Int` (JS numbers
at integral values); positions that the code indexes with a nonnegative number
are converted with `Int.toNat`, which agrees with the source on every
structurally valid state (where the offsets in play are in `[0, length]`).
-/

namespace RichTextEditor

/-- Character class of the regex `\w`: ASCII letters, digits and underscore,
expressed over the character's code point. -/
def isWordChar (c : Char) : Bool :=
  decide ((97 ≤ c.toNat ∧ c.toNat ≤ 122) ∨ (65 ≤ c.toNat ∧ c.toNat ≤ 90) ∨
    (48 ≤ c.toNat ∧ c.toNat ≤ 57) ∨ c.toNat = 95)

/-- Character class of the regex `\s` (ECMAScript WhiteSpace ∪ LineTerminator):
tab, LF, VT, FF, CR, space, NBSP, and the Unicode space separators. -/
def isSpaceChar (c : Char) : Bool :=
  decide ((9 ≤ c.toNat ∧ c.toNat ≤ 13) ∨ c.toNat = 32 ∨ c.toNat = 160 ∨
    c.toNat = 5760 ∨ (8192 ≤ c.toNat ∧ c.toNat ≤ 8202) ∨ c.toNat = 8232 ∨
    c.toNat = 8233 ∨ c.toNat = 8239 ∨ c.toNat = 8287 ∨ c.toNat = 12288 ∨
    c.toNat = 65279)

/-- Character class of the regex `\W`: complement of `\w`. -/
def isNonWordChar (c : Char) : Bool := !isWordChar c

/-- Length of the match of the regex alternative `" ?C+"` at position 0 of `r`
(an optional literal ASCII space, then a maximal run of class `cls`), `none`
when the alternative fails there.  Mirrors the backtracking of the greedy
`" ?"`: consume the space if the class run can follow it, otherwise retry with
the space unconsumed. -/
def altLen (cls : Char → Bool) (r : List Char) : Option Nat :=
  match r with
  | [] => none
  | c :: rest =>
    if c = ' ' then
      if (rest.head?.elim false cls) then some (1 + (rest.takeWhile cls).length)
      else if cls c then some ((r.takeWhile cls).length)
      else none
    else if cls c then some ((r.takeWhile cls).length) else none

/-- Length of the first match of `/\s{2,}| ?\w+| ?\W+|/` on `r`.  The trailing
empty alternative makes the match always succeed at position 0, so the result
is decided by the first alternative that matches there. -/
def wordUnitLength (r : List Char) : Nat :=
  if 2 ≤ (r.takeWhile isSpaceChar).length then (r.takeWhile isSpaceChar).length
  else
    match altLen isWordChar r with
    | some n => n
    | none =>
      match altLen isNonWordChar r with
      | some n => n
      | none => 0

/-- The semantics of JS `text.split("\n")`: at a separator start a new
component, otherwise prepend the character to the first component of the
split of the rest.  Splitting the empty text yields one empty line. -/
def linesOf : List Char → List (List Char)
  | [] => [[]]
  | c :: rest =>
    if c = '\n' then [] :: linesOf rest
    else (c :: (linesOf rest).headD []) :: (linesOf rest).tail

/-- Cursor as in the source: `x` is the desired column, `y` the line index. -/
structure CursorPosition where
  x : Int
  y : Int
deriving DecidableEq

/-- Editor state: document text plus cursor. -/
structure State where
  text : List Char
  cursorPosition : CursorPosition
deriving DecidableEq

/-- Scan direction of `move cursor horizontal`. -/
inductive Direction where
  | forward
  | backward
deriving DecidableEq

/-- The action union of the source reducer. -/
inductive Action where
  | insert (value : List Char)
  | backspace (word : Bool)
  | delete (word : Bool)
  | newline
  | home (ofText : Bool)
  | endKey (ofText : Bool)
  | moveHorizontal (direction : Direction) (word : Bool)
  | moveVertical (dy : Int)
  | setCaret (position : Int)
deriving DecidableEq

/-- The source's `clamp(min, num, max) = Math.max(min, Math.min(max, num))`. -/
def clamp (lo num hi : Int) : Int := max lo (min hi num)

/-- Line `y` of the document, i.e. `text.split("\n")[y]`. -/
def lineAt (text : List Char) (y : Nat) : List Char := (linesOf text).getD y []

/-- The source's `getAbsoluteCursorPosition`: effective column
`min x (line y).length` plus the lengths (+1 for the separator) of the lines
above. -/
def getAbsoluteCursorPosition (s : State) : Int :=
  min s.cursorPosition.x ((lineAt s.text s.cursorPosition.y.toNat).length : Int) +
    ((linesOf s.text).take s.cursorPosition.y.toNat).foldl
      (fun sum line => sum + (line.length : Int) + 1) 0

/-- The source's `getCursotPosition` (sic): split the prefix of length
`absolutePosition`; `y` is its number of lines minus one, `x` the length of
its last line. -/
def getCursotPosition (absolutePosition : Int) (text : List Char) : CursorPosition :=
  let lines := linesOf (text.take absolutePosition.toNat)
  { y := (lines.length : Int) - 1, x := ((lines.getLastD []).length : Int) }

/-- The source's `text.split("\n")[y].search(/\S/)`: index of the first
non-space character, `-1` when there is none. -/
def searchNonSpace (l : List Char) : Int :=
  match l.findIdx? (fun c => !isSpaceChar c) with
  | some i => (i : Int)
  | none => -1

/-- Document update of the `delete` case: `text.slice(0, a) + text.slice(a + k)`. -/
def deleteAt (text : List Char) (a k : Nat) : List Char :=
  text.take a ++ text.drop (a + k)

/-- The source reducer, case by case. -/
def reducer (state : State) (action : Action) : State :=
  let text := state.text
  let cursorPosition := state.cursorPosition
  let absoluteCursorPosition := getAbsoluteCursorPosition state
  match action with
  | .insert value =>
    let textToInsert := value.filter (fun c => c != '\r')
    let newText := text.take absoluteCursorPosition.toNat ++ textToInsert ++
      text.drop absoluteCursorPosition.toNat
    { state with
      text := newText
      cursorPosition :=
        getCursotPosition (absoluteCursorPosition + textToInsert.length) newText }
  | .backspace word =>
    let textToSearch := (text.take absoluteCursorPosition.toNat).reverse
    let lengthToDelete : Nat := if word then wordUnitLength textToSearch else 1
    if absoluteCursorPosition = 0 then state
    else
      { state with
        text := text.take (absoluteCursorPosition - lengthToDelete).toNat ++
          text.drop absoluteCursorPosition.toNat
        cursorPosition := getCursotPosition (absoluteCursorPosition - lengthToDelete) text }
  | .delete word =>
    let textToSearch := text.drop absoluteCursorPosition.toNat
    let lengthToDelete : Nat := if word then wordUnitLength textToSearch else 1
    if absoluteCursorPosition = (text.length : Int) then state
    else { state with text := deleteAt text absoluteCursorPosition.toNat lengthToDelete }
  | .newline =>
    { state with
      text := text.take absoluteCursorPosition.toNat ++ '\n' ::
        text.drop absoluteCursorPosition.toNat
      cursorPosition := { x := 0, y := cursorPosition.y + 1 } }
  | .moveHorizontal direction word =>
    let textToSearch :=
      match direction with
      | .forward => text.drop absoluteCursorPosition.toNat
      | .backward => (text.take absoluteCursorPosition.toNat).reverse
    let lengthToMove : Nat := if word then wordUnitLength textToSearch else 1
    let dy : Int :=
      (match direction with | .forward => 1 | .backward => -1) * lengthToMove
    { state with
      cursorPosition :=
        getCursotPosition (clamp 0 (absoluteCursorPosition + dy) text.length) text }
  | .moveVertical dy =>
    { state with
      cursorPosition :=
        { x := cursorPosition.x
          y := clamp 0 (cursorPosition.y + dy) (((linesOf text).length : Int) - 1) } }
  | .home ofText =>
    let currentLineTextStartPosition := searchNonSpace (lineAt text cursorPosition.y.toNat)
    { state with
      cursorPosition :=
        if ofText then { x := 0, y := 0 }
        else
          { y := cursorPosition.y
            x := if cursorPosition.x = currentLineTextStartPosition then 0
              else currentLineTextStartPosition } }
  | .endKey ofText =>
    { state with
      cursorPosition :=
        if ofText then getCursotPosition text.length text
        else { y := cursorPosition.y, x := ((lineAt text cursorPosition.y.toNat).length : Int) } }
  | .setCaret position =>
    { state with cursorPosition := getCursotPosition position text }

/-- Structural validity of a state, the invariants of the data model:
`0 ≤ y ≤ lineCount − 1` and `0 ≤ x`. -/
def ValidState (s : State) : Prop :=
  0 ≤ s.cursorPosition.y ∧
    s.cursorPosition.y ≤ ((linesOf s.text).length : Int) - 1 ∧
    0 ≤ s.cursorPosition.x

instance (s : State) : Decidable (ValidState s) := by
  unfold ValidState; infer_instance

/-- Linear offset of the start of line `y`: sum of `length + 1` over the lines
above it. -/
def lineStart (t : List Char) (y : Nat) : Nat :=
  (((linesOf t).take y).map (fun l => l.length + 1)).sum

theorem linesOf_ne_nil (t : List Char) : linesOf t ≠ [] := by
  cases t with
  | nil => simp [linesOf]
  | cons c rest =>
    simp only [linesOf]
    split <;> simp

theorem linesOf_length_pos (t : List Char) : 0 < (linesOf t).length :=
  List.length_pos.mpr (linesOf_ne_nil t)

theorem linesOf_cons_newline (rest : List Char) :
    linesOf ('\n' :: rest) = [] :: linesOf rest := by
  simp [linesOf]

theorem linesOf_cons_of_ne (c : Char) (rest : List Char) (hc : c ≠ '\n')
    (l : List Char) (ls : List (List Char)) (hr : linesOf rest = l :: ls) :
    linesOf (c :: rest) = (c :: l) :: ls := by
  simp [linesOf, hc, hr]

theorem lineStart_zero (t : List Char) : lineStart t 0 = 0 := by
  simp [lineStart]

theorem lineStart_succ_newline (rest : List Char) (y : Nat) :
    lineStart ('\n' :: rest) (y + 1) = 1 + lineStart rest y := by
  simp [lineStart, linesOf_cons_newline]

theorem lineStart_succ_of_ne (c : Char) (rest : List Char) (hc : c ≠ '\n')
    (l : List Char) (ls : List (List Char)) (hr : linesOf rest = l :: ls) (y : Nat) :
    lineStart (c :: rest) (y + 1) = 1 + lineStart rest (y + 1) := by
  simp [lineStart, linesOf_cons_of_ne c rest hc l ls hr, hr, List.take_succ_cons]
  omega

/-- Splitting the prefix that ends at column `e` of line `y` yields the lines
above `y` followed by the first `e` characters of line `y`. -/
theorem linesOf_take (t : List Char) : ∀ (y e : Nat),
    y < (linesOf t).length → e ≤ ((linesOf t).getD y []).length →
    linesOf (t.take (lineStart t y + e)) =
      (linesOf t).take y ++ [((linesOf t).getD y []).take e] := by
  induction t with
  | nil =>
    intro y e hy he
    simp only [linesOf, List.length_singleton] at hy
    have hy0 : y = 0 := by omega
    subst hy0
    simp only [linesOf, List.getD_cons_zero, List.length_nil, Nat.le_zero] at he
    subst he
    simp [linesOf, lineStart]
  | cons c rest ih =>
    intro y e hy he
    by_cases hc : c = '\n'
    · subst hc
      rw [linesOf_cons_newline] at hy he ⊢
      cases y with
      | zero =>
        simp only [List.getD_cons_zero, List.length_nil, Nat.le_zero] at he
        subst he
        simp [lineStart_zero, linesOf]
      | succ y =>
        simp only [List.getD_cons_succ] at he ⊢
        simp only [List.length_cons] at hy
        have hy' : y < (linesOf rest).length := by omega
        rw [lineStart_succ_newline]
        have harith : 1 + lineStart rest y + e = (lineStart rest y + e) + 1 := by omega
        rw [harith, List.take_succ_cons, linesOf_cons_newline, ih y e hy' he]
        simp [List.take_succ_cons]
    · obtain ⟨l, ls, hr⟩ := List.exists_cons_of_ne_nil (linesOf_ne_nil rest)
      have ht := linesOf_cons_of_ne c rest hc l ls hr
      rw [ht] at hy he ⊢
      cases y with
      | zero =>
        simp only [List.getD_cons_zero, List.length_cons] at he ⊢
        rw [lineStart_zero]
        cases e with
        | zero => simp [linesOf]
        | succ e =>
          have he' : e ≤ l.length := by omega
          have ihx := ih 0 e (by rw [hr]; simp)
            (by rw [hr]; simpa using he')
          rw [lineStart_zero] at ihx
          rw [hr] at ihx
          simp only [List.take_zero, List.nil_append, List.getD_cons_zero,
            Nat.zero_add] at ihx
          simp only [Nat.zero_add, List.take_zero, List.nil_append]
          rw [List.take_succ_cons, linesOf_cons_of_ne c _ hc (l.take e) [] ihx]
          simp [List.take_succ_cons]
      | succ y =>
        simp only [List.getD_cons_succ] at he ⊢
        simp only [List.length_cons] at hy
        have hy' : y + 1 < (linesOf rest).length := by rw [hr]; simp; omega
        have he'' : e ≤ ((linesOf rest).getD (y + 1) []).length := by
          rw [hr]; simpa using he
        rw [lineStart_succ_of_ne c rest hc l ls hr]
        have harith : 1 + lineStart rest (y + 1) + e = (lineStart rest (y + 1) + e) + 1 := by
          omega
        rw [harith, List.take_succ_cons]
        have ihx := ih (y + 1) e hy' he''
        rw [hr] at ihx
        simp only [List.take_succ_cons, List.getD_cons_succ, List.cons_append] at ihx
        rw [linesOf_cons_of_ne c _ hc _ _ ihx]
        simp [List.take_succ_cons]

/-- Every in-range offset decomposes as a line start plus an in-range column. -/
theorem offset_decomp (t : List Char) : ∀ (p : Nat), p ≤ t.length →
    ∃ y e, y < (linesOf t).length ∧ e ≤ ((linesOf t).getD y []).length ∧
      p = lineStart t y + e := by
  induction t with
  | nil =>
    intro p hp
    simp only [List.length_nil, Nat.le_zero] at hp
    refine ⟨0, 0, linesOf_length_pos [], by simp, by rw [lineStart_zero]; omega⟩
  | cons c rest ih =>
    intro p hp
    cases p with
    | zero =>
      exact ⟨0, 0, linesOf_length_pos _, by simp, by rw [lineStart_zero]⟩
    | succ p =>
      have hp' : p ≤ rest.length := by simpa using hp
      by_cases hc : c = '\n'
      · subst hc
        obtain ⟨y, e, hy, he, hpe⟩ := ih p hp'
        refine ⟨y + 1, e, ?_, ?_, ?_⟩
        · rw [linesOf_cons_newline]; simpa using hy
        · rw [linesOf_cons_newline]; simpa using he
        · rw [lineStart_succ_newline]; omega
      · obtain ⟨l, ls, hr⟩ := List.exists_cons_of_ne_nil (linesOf_ne_nil rest)
        have ht := linesOf_cons_of_ne c rest hc l ls hr
        obtain ⟨y, e, hy, he, hpe⟩ := ih p hp'
        cases y with
        | zero =>
          refine ⟨0, e + 1, ?_, ?_, ?_⟩
          · exact linesOf_length_pos _
          · rw [ht]
            rw [hr] at he
            simp only [List.getD_cons_zero] at he ⊢
            simpa using he
          · rw [lineStart_zero]; rw [lineStart_zero] at hpe; omega
        | succ y =>
          refine ⟨y + 1, e, ?_, ?_, ?_⟩
          · rw [ht]; rw [hr] at hy; simpa using hy
          · rw [ht]; rw [hr] at he; simpa using he
          · rw [lineStart_succ_of_ne c rest hc l ls hr]; omega

/-- The offset of the end of line `y` is at most the document length. -/
theorem lineStart_add_length_le (t : List Char) : ∀ (y : Nat),
    y < (linesOf t).length →
    lineStart t y + ((linesOf t).getD y []).length ≤ t.length := by
  induction t with
  | nil =>
    intro y hy
    simp only [linesOf, List.length_singleton] at hy
    have hy0 : y = 0 := by omega
    subst hy0
    simp [linesOf, lineStart]
  | cons c rest ih =>
    intro y hy
    by_cases hc : c = '\n'
    · subst hc
      rw [linesOf_cons_newline] at hy ⊢
      cases y with
      | zero => simp [lineStart_zero]
      | succ y =>
        simp only [List.length_cons] at hy
        simp only [List.getD_cons_succ]
        rw [lineStart_succ_newline]
        have := ih y (by omega)
        simp only [List.length_cons]
        omega
    · obtain ⟨l, ls, hr⟩ := List.exists_cons_of_ne_nil (linesOf_ne_nil rest)
      have ht := linesOf_cons_of_ne c rest hc l ls hr
      rw [ht] at hy ⊢
      cases y with
      | zero =>
        have := ih 0 (linesOf_length_pos rest)
        rw [hr] at this
        simp only [List.getD_cons_zero] at this ⊢
        rw [lineStart_zero]
        simp only [List.length_cons]
        omega
      | succ y =>
        simp only [List.length_cons] at hy
        have hy' : y + 1 < (linesOf rest).length := by rw [hr]; simpa using hy
        have := ih (y + 1) hy'
        rw [hr] at this
        simp only [List.getD_cons_succ] at this ⊢
        rw [lineStart_succ_of_ne c rest hc l ls hr]
        simp only [List.length_cons]
        omega

theorem foldl_lineSum (ls : List (List Char)) : ∀ (init : Int),
    ls.foldl (fun sum line => sum + (line.length : Int) + 1) init =
      init + (((ls.map (fun l => l.length + 1)).sum : Nat) : Int) := by
  induction ls with
  | nil => intro init; simp
  | cons l ls ih =>
    intro init
    simp only [List.foldl_cons, List.map_cons, List.sum_cons, ih]
    push_cast
    ring

/-- With a nonnegative desired column, the absolute position is the line start
plus the effective column, computed in `Nat`. -/
theorem getAbs_eq (s : State) (hx : 0 ≤ s.cursorPosition.x) :
    getAbsoluteCursorPosition s =
      ((lineStart s.text s.cursorPosition.y.toNat +
        min s.cursorPosition.x.toNat
          (lineAt s.text s.cursorPosition.y.toNat).length : Nat) : Int) := by
  unfold getAbsoluteCursorPosition lineStart
  rw [foldl_lineSum]
  unfold lineAt
  push_cast
  omega

theorem getAbs_nonneg (s : State) (hx : 0 ≤ s.cursorPosition.x) :
    0 ≤ getAbsoluteCursorPosition s := by
  rw [getAbs_eq s hx]
  exact Int.natCast_nonneg _

theorem getAbs_le_length (s : State) (h : ValidState s) :
    getAbsoluteCursorPosition s ≤ (s.text.length : Int) := by
  obtain ⟨hy0, hyL, hx⟩ := h
  rw [getAbs_eq s hx]
  have hline : lineAt s.text s.cursorPosition.y.toNat =
      (linesOf s.text).getD s.cursorPosition.y.toNat [] := rfl
  rw [hline]
  have hyLt : s.cursorPosition.y.toNat < (linesOf s.text).length := by omega
  have hb := lineStart_add_length_le s.text s.cursorPosition.y.toNat hyLt
  omega

/-- Characterization of `getCursotPosition` at an offset that decomposes as
line `y`, column `e`. -/
theorem getCursot_eq (t : List Char) (p : Int) (y e : Nat)
    (hy : y < (linesOf t).length) (he : e ≤ ((linesOf t).getD y []).length)
    (hp : p.toNat = lineStart t y + e) :
    getCursotPosition p t = { x := (e : Int), y := (y : Int) } := by
  simp only [getCursotPosition]
  rw [hp, linesOf_take t y e hy he]
  have h1 : ((linesOf t).take y).length = y := by rw [List.length_take]; omega
  have h2 : (((linesOf t).getD y []).take e).length = e := by
    rw [List.length_take]; omega
  rw [List.getLastD_concat]
  simp only [List.length_append, List.length_singleton, h1, h2,
    CursorPosition.mk.injEq]
  constructor
  · trivial
  · push_cast
    ring

/-- Converting an in-range offset to a cursor and back is the identity. -/
theorem getAbs_getCursot (t : List Char) (p : Int) (h0 : 0 ≤ p)
    (hl : p ≤ (t.length : Int)) :
    getAbsoluteCursorPosition { text := t, cursorPosition := getCursotPosition p t } = p := by
  obtain ⟨y, e, hy, he, hpe⟩ := offset_decomp t p.toNat (by omega)
  rw [getCursot_eq t p y e hy he hpe]
  rw [getAbs_eq _ (by exact Int.natCast_nonneg _)]
  simp only [Int.toNat_natCast]
  have hmin : min e (lineAt t y).length = e := by
    unfold lineAt
    omega
  rw [hmin]
  omega

/-- C1: for every structurally valid state, converting the cursor to a linear
offset and back yields the effective position of the cursor: the line index is
unchanged and the column is the desired column clamped to the line's length,
so sticky overshoot is collapsed and never amplified. -/
theorem round_trip_effective_cursor (s : State) (h : ValidState s) :
    (getCursotPosition (getAbsoluteCursorPosition s) s.text).y = s.cursorPosition.y ∧
    (getCursotPosition (getAbsoluteCursorPosition s) s.text).x =
      min s.cursorPosition.x ((lineAt s.text s.cursorPosition.y.toNat).length : Int) := by
  obtain ⟨hy0, hyL, hx0⟩ := h
  have hyLt : s.cursorPosition.y.toNat < (linesOf s.text).length := by omega
  have hline : lineAt s.text s.cursorPosition.y.toNat =
      (linesOf s.text).getD s.cursorPosition.y.toNat [] := rfl
  have htn : (getAbsoluteCursorPosition s).toNat =
      lineStart s.text s.cursorPosition.y.toNat +
        min s.cursorPosition.x.toNat (lineAt s.text s.cursorPosition.y.toNat).length := by
    rw [getAbs_eq s hx0]
    omega
  have hE : min s.cursorPosition.x.toNat (lineAt s.text s.cursorPosition.y.toNat).length ≤
      ((linesOf s.text).getD s.cursorPosition.y.toNat []).length := by
    rw [← hline]
    exact Nat.min_le_right _ _
  rw [getCursot_eq s.text _ s.cursorPosition.y.toNat _ hyLt hE htn]
  constructor
  · show ((s.cursorPosition.y.toNat : Nat) : Int) = s.cursorPosition.y
    omega
  · show ((min s.cursorPosition.x.toNat (lineAt s.text s.cursorPosition.y.toNat).length : Nat) : Int) =
      min s.cursorPosition.x ((lineAt s.text s.cursorPosition.y.toNat).length : Int)
    omega

/-- Witness for C1 at a concrete sticky state: document `"ab\nc"`, cursor
`(x=5, y=0)`; the round trip yields `(x=2, y=0)`. -/
theorem round_trip_effective_cursor_witness :
    (getCursotPosition
        (getAbsoluteCursorPosition
          { text := ['a', 'b', '\n', 'c'], cursorPosition := { x := 5, y := 0 } })
        ['a', 'b', '\n', 'c']).y = 0 ∧
    (getCursotPosition
        (getAbsoluteCursorPosition
          { text := ['a', 'b', '\n', 'c'], cursorPosition := { x := 5, y := 0 } })
        ['a', 'b', '\n', 'c']).x =
      min 5 ((lineAt ['a', 'b', '\n', 'c'] 0).length : Int) :=
  round_trip_effective_cursor
    { text := ['a', 'b', '\n', 'c'], cursorPosition := { x := 5, y := 0 } }
    (by decide)

/-- C4 (evaluation at the failing input): on the all-space line `"  "` with
cursor `(0,0)`, `Home(ofText=false)` sets the column to `-1` — the unhandled
`search(/\S/)` sentinel — where the claim (and the evident smart-home intent)
requires column `0`. -/
theorem home_all_space_line_eval :
    reducer { text := [' ', ' '], cursorPosition := { x := 0, y := 0 } } (.home false) =
      { text := [' ', ' '], cursorPosition := { x := -1, y := 0 } } := by
  decide

/-- C5 (evaluation at the failing input): the valid state with document `" "`
and cursor `(0,0)` is mapped by `Home(ofText=false)` to a state violating the
invariant `x ≥ 0`. -/
theorem home_breaks_invariant_eval :
    ValidState { text := [' '], cursorPosition := { x := 0, y := 0 } } ∧
    ¬ ValidState
        (reducer { text := [' '], cursorPosition := { x := 0, y := 0 } } (.home false)) := by
  decide

/-- C6: Backspace at linear offset 0 and Delete at the document end both
return the input state unchanged, word-wise or not. -/
theorem backspace_delete_noop_at_edges (s : State) (w : Bool) :
    (getAbsoluteCursorPosition s = 0 → reducer s (.backspace w) = s) ∧
    (getAbsoluteCursorPosition s = (s.text.length : Int) → reducer s (.delete w) = s) := by
  constructor
  · intro h
    simp [reducer, h]
  · intro h
    simp [reducer, h]

/-- Witness for C6 at the empty document, whose offset is both 0 and the
document length. -/
theorem backspace_delete_noop_at_edges_witness :
    reducer { text := [], cursorPosition := { x := 0, y := 0 } } (.backspace true) =
      { text := [], cursorPosition := { x := 0, y := 0 } } ∧
    reducer { text := [], cursorPosition := { x := 0, y := 0 } } (.delete true) =
      { text := [], cursorPosition := { x := 0, y := 0 } } :=
  ⟨(backspace_delete_noop_at_edges
      { text := [], cursorPosition := { x := 0, y := 0 } } true).1 (by decide),
   (backspace_delete_noop_at_edges
      { text := [], cursorPosition := { x := 0, y := 0 } } true).2 (by decide)⟩

/-- C7: MoveVertical leaves the document and the desired column unchanged and
clamps the line index; on the sticky-column scenario `"ab\nc"`, `(x=2,y=0)`,
moving down yields `(x=2,y=1)` whose linear offset is the end of line 1. -/
theorem move_vertical_clamps_and_sticky :
    (∀ (s : State) (dy : Int),
      (reducer s (.moveVertical dy)).text = s.text ∧
      (reducer s (.moveVertical dy)).cursorPosition.x = s.cursorPosition.x ∧
      (reducer s (.moveVertical dy)).cursorPosition.y =
        clamp 0 (s.cursorPosition.y + dy) (((linesOf s.text).length : Int) - 1)) ∧
    (reducer { text := ['a', 'b', '\n', 'c'], cursorPosition := { x := 2, y := 0 } }
        (.moveVertical 1)).cursorPosition = { x := 2, y := 1 } ∧
    getAbsoluteCursorPosition
      (reducer { text := ['a', 'b', '\n', 'c'], cursorPosition := { x := 2, y := 0 } }
        (.moveVertical 1)) = 4 :=
  ⟨fun _ _ => ⟨rfl, rfl, rfl⟩, by decide, by decide⟩

/-- C9: forward deletion (word-wise or not) never relocates the cursor: when
the offset is strictly inside the document, the returned cursor is the input
cursor. -/
theorem delete_preserves_cursor (s : State) (w : Bool)
    (h : getAbsoluteCursorPosition s < (s.text.length : Int)) :
    (reducer s (.delete w)).cursorPosition = s.cursorPosition := by
  simp only [reducer]
  split <;> rfl

/-- Witness for C9: deleting a word in `"ab"` from offset 0 keeps the cursor
at `(0,0)`. -/
theorem delete_preserves_cursor_witness :
    (reducer { text := ['a', 'b'], cursorPosition := { x := 0, y := 0 } }
        (.delete true)).cursorPosition =
      ({ x := 0, y := 0 } : CursorPosition) :=
  delete_preserves_cursor
    { text := ['a', 'b'], cursorPosition := { x := 0, y := 0 } } true (by decide)

theorem isWordChar_not_space (c : Char) (h : isWordChar c = true) :
    isSpaceChar c = false := by
  simp only [isWordChar, decide_eq_true_eq] at h
  simp only [isSpaceChar, decide_eq_false_iff_not]
  omega

theorem isWordChar_ne_space (c : Char) (h : isWordChar c = true) : c ≠ ' ' := by
  intro hc
  subst hc
  exact absurd h (by decide)

theorem takeWhile_length_le (p : Char → Bool) (l : List Char) :
    (l.takeWhile p).length ≤ l.length := by
  induction l with
  | nil => simp
  | cons a l ih =>
    rw [List.takeWhile_cons]
    split
    · simpa using ih
    · simp

theorem altLen_le (cls : Char → Bool) (r : List Char) (n : Nat)
    (h : altLen cls r = some n) : n ≤ r.length := by
  cases r with
  | nil => simp [altLen] at h
  | cons c rest =>
    have htw : (rest.takeWhile cls).length ≤ rest.length := takeWhile_length_le _ _
    have htw' : ((c :: rest).takeWhile cls).length ≤ rest.length + 1 := by
      simpa using takeWhile_length_le cls (c :: rest)
    simp only [altLen] at h
    by_cases hc : c = ' '
    · rw [if_pos hc] at h
      split at h
      · simp only [Option.some.injEq] at h
        simp only [List.length_cons]
        omega
      · split at h
        · simp only [Option.some.injEq] at h
          simp only [List.length_cons]
          omega
        · simp at h
    · rw [if_neg hc] at h
      split at h
      · simp only [Option.some.injEq] at h
        simp only [List.length_cons]
        omega
      · simp at h

theorem altLen_pos (cls : Char → Bool) (r : List Char) (n : Nat)
    (h : altLen cls r = some n) : 1 ≤ n := by
  cases r with
  | nil => simp [altLen] at h
  | cons c rest =>
    simp only [altLen] at h
    by_cases hc : c = ' '
    · rw [if_pos hc] at h
      split at h
      · simp only [Option.some.injEq] at h
        omega
      · split at h
        · next hcls =>
          simp only [Option.some.injEq] at h
          rw [List.takeWhile_cons, hcls] at h
          simp only [reduceIte, List.length_cons] at h
          omega
        · simp at h
    · rw [if_neg hc] at h
      split at h
      · next hcls =>
        simp only [Option.some.injEq] at h
        rw [List.takeWhile_cons, hcls] at h
        simp only [reduceIte, List.length_cons] at h
        omega
      · simp at h

theorem wordUnitLength_le (r : List Char) : wordUnitLength r ≤ r.length := by
  unfold wordUnitLength
  split
  · exact takeWhile_length_le _ _
  · split
    · next n hn => exact altLen_le _ _ _ hn
    · split
      · next n hn => exact altLen_le _ _ _ hn
      · exact Nat.zero_le _

theorem wordUnitLength_pos (r : List Char) (h : r ≠ []) : 1 ≤ wordUnitLength r := by
  obtain ⟨c, rest, rfl⟩ := List.exists_cons_of_ne_nil h
  unfold wordUnitLength
  split
  · next h2 => omega
  · split
    · next n hn => exact altLen_pos _ _ _ hn
    · next hword =>
      split
      · next n hn => exact altLen_pos _ _ _ hn
      · next hnon =>
        exfalso
        simp only [altLen] at hword hnon
        by_cases hc : c = ' '
        · rw [if_pos hc] at hnon
          split at hnon
          · simp at hnon
          · rw [hc, if_pos (by decide : isNonWordChar ' ' = true)] at hnon
            simp at hnon
        · rw [if_neg hc] at hword hnon
          by_cases hw : isWordChar c = true
          · rw [if_pos hw] at hword
            simp at hword
          · rw [if_pos (by simp [isNonWordChar, hw] : isNonWordChar c = true)] at hnon
            simp at hnon

/-- Helper to evaluate the scanner when the second regex alternative wins. -/
theorem wordUnitLength_eq_of_word (r : List Char)
    (hs : ¬ 2 ≤ (r.takeWhile isSpaceChar).length) (n : Nat)
    (h : altLen isWordChar r = some n) : wordUnitLength r = n := by
  unfold wordUnitLength
  rw [if_neg hs, h]

/-- C2 counterexample: the run `"\ta"` begins with one space character (a tab
is whitespace under the spec's character classes) followed by a word
character, yet the scanner's unit is 1, not 1 + 1: the scanner's optional
leading space is only the ASCII space, so the tab is consumed alone by the
non-word alternative. -/
theorem word_unit_tab_counterexample :
    isSpaceChar '\t' = true ∧ isWordChar 'a' = true ∧
    wordUnitLength ['\t', 'a'] = 1 ∧ ¬ wordUnitLength ['\t', 'a'] = 1 + 1 := by
  decide

/-- C2 (amended): for a run beginning with zero or one ASCII space character
`' '` (U+0020 — not an arbitrary whitespace character) followed by one or more
word characters, the word unit is the optional leading space plus the maximal
following run of word characters. -/
theorem word_unit_space_word_run (opt rest : List Char) (c : Char)
    (hopt : opt = [] ∨ opt = [' ']) (hc : isWordChar c = true) :
    wordUnitLength (opt ++ c :: rest) =
      opt.length + ((c :: rest).takeWhile isWordChar).length := by
  have hcs : isSpaceChar c = false := isWordChar_not_space c hc
  have hcne : c ≠ ' ' := isWordChar_ne_space c hc
  rcases hopt with h | h <;> subst h
  · have hs : ((c :: rest).takeWhile isSpaceChar).length = 0 := by
      rw [List.takeWhile_cons, hcs]
      simp
    have halt : altLen isWordChar (c :: rest) =
        some (((c :: rest).takeWhile isWordChar).length) := by
      simp only [altLen]
      rw [if_neg hcne, if_pos hc]
    rw [List.nil_append, wordUnitLength_eq_of_word _ (by omega) _ halt]
    simp
  · have hs : ((' ' :: c :: rest).takeWhile isSpaceChar).length = 1 := by
      rw [List.takeWhile_cons, if_pos (by decide : isSpaceChar ' ' = true),
        List.takeWhile_cons, hcs]
      simp
    have halt : altLen isWordChar (' ' :: c :: rest) =
        some (1 + ((c :: rest).takeWhile isWordChar).length) := by
      simp only [altLen, if_true]
      rw [if_pos (by simp [hc] : (c :: rest).head?.elim false isWordChar = true)]
    rw [List.cons_append, List.nil_append, wordUnitLength_eq_of_word _ (by omega) _ halt]
    simp

/-- Witness for C2 (amended) at the run `" foo bar"`: the unit is the leading
space plus `"foo"`, of length 4. -/
theorem word_unit_space_word_run_witness :
    wordUnitLength ([' '] ++ 'f' :: ['o', 'o', ' ', 'b', 'a', 'r']) =
      [' '].length + (('f' :: ['o', 'o', ' ', 'b', 'a', 'r']).takeWhile isWordChar).length :=
  word_unit_space_word_run [' '] ['o', 'o', ' ', 'b', 'a', 'r'] 'f'
    (Or.inr rfl) (by decide)

theorem reducer_moveHorizontal_forward_word (s : State) :
    reducer s (.moveHorizontal .forward true) =
      { s with
        cursorPosition :=
          getCursotPosition
            (clamp 0 (getAbsoluteCursorPosition s +
                1 * (wordUnitLength (s.text.drop (getAbsoluteCursorPosition s).toNat) : Int))
              s.text.length) s.text } := rfl

theorem reducer_moveHorizontal_backward_word (s : State) :
    reducer s (.moveHorizontal .backward true) =
      { s with
        cursorPosition :=
          getCursotPosition
            (clamp 0 (getAbsoluteCursorPosition s +
                (-1) * (wordUnitLength
                  ((s.text.take (getAbsoluteCursorPosition s).toNat).reverse) : Int))
              s.text.length) s.text } := rfl

theorem reducer_delete_word (s : State) :
    reducer s (.delete true) =
      (if getAbsoluteCursorPosition s = (s.text.length : Int) then s
       else
        { s with
          text := deleteAt s.text (getAbsoluteCursorPosition s).toNat
            (wordUnitLength (s.text.drop (getAbsoluteCursorPosition s).toNat)) }) := rfl

theorem reducer_backspace_word (s : State) :
    reducer s (.backspace true) =
      (if getAbsoluteCursorPosition s = 0 then s
       else
        { s with
          text := s.text.take (getAbsoluteCursorPosition s -
              (wordUnitLength
                ((s.text.take (getAbsoluteCursorPosition s).toNat).reverse) : Int)).toNat ++
            s.text.drop (getAbsoluteCursorPosition s).toNat
          cursorPosition :=
            getCursotPosition
              (getAbsoluteCursorPosition s -
                (wordUnitLength
                  ((s.text.take (getAbsoluteCursorPosition s).toNat).reverse) : Int))
              s.text }) := rfl

theorem clamp_lower (m hi : Int) (h : 0 ≤ hi) : 0 ≤ clamp 0 m hi := by
  unfold clamp
  omega

theorem clamp_upper (m hi : Int) (h : 0 ≤ hi) : clamp 0 m hi ≤ hi := by
  unfold clamp
  omega

/-- C3: at any point of any document, the linear-offset distance travelled by
word-wise forward motion equals the number of characters removed by word-wise
forward deletion, because both use the same word-unit scan of the text after
the cursor. -/
theorem word_motion_deletion_symmetry (s : State) (h : ValidState s) :
    getAbsoluteCursorPosition (reducer s (.moveHorizontal .forward true)) -
        getAbsoluteCursorPosition s =
      (s.text.length : Int) - ((reducer s (.delete true)).text.length : Int) := by
  have h0 := getAbs_nonneg s h.2.2
  have hl := getAbs_le_length s h
  rw [reducer_moveHorizontal_forward_word, reducer_delete_word]
  set a := getAbsoluteCursorPosition s with ha
  set k := wordUnitLength (s.text.drop a.toNat) with hk
  have hkle : k ≤ (s.text.drop a.toNat).length := wordUnitLength_le _
  rw [List.length_drop] at hkle
  have hcl := clamp_lower (a + 1 * (k : Int)) s.text.length (by positivity)
  have hcu := clamp_upper (a + 1 * (k : Int)) s.text.length (by positivity)
  rw [getAbs_getCursot s.text _ hcl hcu]
  by_cases he : a = (s.text.length : Int)
  · rw [if_pos he]
    have hdrop : s.text.drop a.toNat = [] := by
      apply List.drop_eq_nil_of_le
      omega
    rw [hdrop] at hk
    have hk0 : k = 0 := hk
    unfold clamp
    omega
  · rw [if_neg he]
    have hlen : (deleteAt s.text a.toNat k).length =
        a.toNat + (s.text.length - (a.toNat + k)) := by
      unfold deleteAt
      rw [List.length_append, List.length_take, List.length_drop]
      omega
    rw [hlen]
    unfold clamp
    push_cast
    omega

/-- Witness for C3 at document `"foo  bar"` with the cursor at offset 0: the
motion distance and the deletion count agree. -/
theorem word_motion_deletion_symmetry_witness :
    getAbsoluteCursorPosition
        (reducer { text := ['f', 'o', 'o', ' ', ' ', 'b', 'a', 'r'], cursorPosition := { x := 0, y := 0 } } (.moveHorizontal .forward true)) -
      getAbsoluteCursorPosition
        { text := ['f', 'o', 'o', ' ', ' ', 'b', 'a', 'r'], cursorPosition := { x := 0, y := 0 } } =
      ((['f', 'o', 'o', ' ', ' ', 'b', 'a', 'r'] : List Char).length : Int) -
        ((reducer { text := ['f', 'o', 'o', ' ', ' ', 'b', 'a', 'r'], cursorPosition := { x := 0, y := 0 } } (.delete true)).text.length : Int) :=
  word_motion_deletion_symmetry
    { text := ['f', 'o', 'o', ' ', ' ', 'b', 'a', 'r'], cursorPosition := { x := 0, y := 0 } }
    (by decide)

/-- C8: splicing a string (carriage returns stripped, as the Insert action
does) into the document at an in-range offset and then removing the inserted
length at that offset — the document update the delete case performs —
restores the original document. -/
theorem insert_delete_inverse (text t : List Char) (o : Int)
    (h0 : 0 ≤ o) (hl : o ≤ (text.length : Int)) :
    deleteAt
      ((reducer { text := text, cursorPosition := getCursotPosition o text }
        (.insert t)).text)
      o.toNat (t.filter (fun c => c != '\r')).length = text := by
  have ha : getAbsoluteCursorPosition
      { text := text, cursorPosition := getCursotPosition o text } = o :=
    getAbs_getCursot text o h0 hl
  have htext : (reducer { text := text, cursorPosition := getCursotPosition o text }
      (.insert t)).text =
      text.take o.toNat ++ t.filter (fun c => c != '\r') ++ text.drop o.toNat := by
    simp only [reducer, ha]
  rw [htext]
  unfold deleteAt
  have hto : (text.take o.toNat).length = o.toNat := by
    rw [List.length_take]
    omega
  have h1 : ((text.take o.toNat ++ t.filter (fun c => c != '\r')) ++
      text.drop o.toNat).take o.toNat = text.take o.toNat := by
    rw [List.append_assoc]
    exact List.take_left' hto
  have h2 : ((text.take o.toNat ++ t.filter (fun c => c != '\r')) ++
      text.drop o.toNat).drop (o.toNat + (t.filter (fun c => c != '\r')).length) =
      text.drop o.toNat :=
    List.drop_left' (by rw [List.length_append, hto])
  rw [h1, h2]
  exact List.take_append_drop _ _

/-- Witness for C8: inserting `"x\r"` into `"ab"` at offset 1 and deleting the
stripped length (1) there restores `"ab"`. -/
theorem insert_delete_inverse_witness :
    deleteAt
      ((reducer { text := ['a', 'b'], cursorPosition := getCursotPosition 1 ['a', 'b'] }
        (.insert ['x', '\r'])).text)
      (1 : Int).toNat ((['x', '\r'] : List Char).filter (fun c => c != '\r')).length =
      ['a', 'b'] :=
  insert_delete_inverse ['a', 'b'] ['x', '\r'] 1 (by decide) (by decide)

/-- C10: nonempty runs yield word units of length at least 1 and the
zero-length fallback fires only on the empty run; hence word-wise Backspace
away from offset 0 and word-wise Delete away from the end strictly shorten the
document, and word-wise horizontal motion away from a buffer edge changes the
linear offset. -/
theorem word_unit_progress :
    (∀ (r : List Char), r ≠ [] → 1 ≤ wordUnitLength r) ∧
    (∀ (r : List Char), wordUnitLength r = 0 → r = []) ∧
    (∀ (s : State), ValidState s → 0 < getAbsoluteCursorPosition s →
      ((reducer s (.backspace true)).text).length < s.text.length) ∧
    (∀ (s : State), ValidState s → getAbsoluteCursorPosition s < (s.text.length : Int) →
      ((reducer s (.delete true)).text).length < s.text.length) ∧
    (∀ (s : State), ValidState s → getAbsoluteCursorPosition s < (s.text.length : Int) →
      getAbsoluteCursorPosition (reducer s (.moveHorizontal .forward true)) ≠
        getAbsoluteCursorPosition s) ∧
    (∀ (s : State), ValidState s → 0 < getAbsoluteCursorPosition s →
      getAbsoluteCursorPosition (reducer s (.moveHorizontal .backward true)) ≠
        getAbsoluteCursorPosition s) := by
  have hne : ∀ (r : List Char), 0 < r.length → r ≠ [] := by
    intro r hr
    exact List.ne_nil_of_length_pos hr
  refine ⟨fun r hr => wordUnitLength_pos r hr, ?_, ?_, ?_, ?_, ?_⟩
  · intro r h
    by_contra hne2
    have := wordUnitLength_pos r hne2
    omega
  · intro s hv ha
    have h0 := getAbs_nonneg s hv.2.2
    have hl := getAbs_le_length s hv
    rw [reducer_backspace_word, if_neg (by omega)]
    set a := getAbsoluteCursorPosition s with haa
    set k := wordUnitLength ((s.text.take a.toNat).reverse) with hk
    have hrevlen : ((s.text.take a.toNat).reverse).length = a.toNat := by
      rw [List.length_reverse, List.length_take]
      omega
    have hk1 : 1 ≤ k := by
      apply wordUnitLength_pos
      apply hne
      omega
    have hkle : k ≤ a.toNat := by
      have := wordUnitLength_le ((s.text.take a.toNat).reverse)
      omega
    simp only [List.length_append, List.length_take, List.length_drop]
    omega
  · intro s hv ha
    have h0 := getAbs_nonneg s hv.2.2
    rw [reducer_delete_word, if_neg (by omega)]
    set a := getAbsoluteCursorPosition s with haa
    set k := wordUnitLength (s.text.drop a.toNat) with hk
    have hk1 : 1 ≤ k := by
      apply wordUnitLength_pos
      apply hne
      rw [List.length_drop]
      omega
    unfold deleteAt
    simp only [List.length_append, List.length_take, List.length_drop]
    omega
  · intro s hv ha
    have h0 := getAbs_nonneg s hv.2.2
    have hl := getAbs_le_length s hv
    rw [reducer_moveHorizontal_forward_word]
    set a := getAbsoluteCursorPosition s with haa
    set k := wordUnitLength (s.text.drop a.toNat) with hk
    have hk1 : 1 ≤ k := by
      apply wordUnitLength_pos
      apply hne
      rw [List.length_drop]
      omega
    have hcl := clamp_lower (a + 1 * (k : Int)) s.text.length (Int.natCast_nonneg _)
    have hcu := clamp_upper (a + 1 * (k : Int)) s.text.length (Int.natCast_nonneg _)
    rw [getAbs_getCursot s.text _ hcl hcu]
    unfold clamp
    omega
  · intro s hv ha
    have h0 := getAbs_nonneg s hv.2.2
    have hl := getAbs_le_length s hv
    rw [reducer_moveHorizontal_backward_word]
    set a := getAbsoluteCursorPosition s with haa
    set k := wordUnitLength ((s.text.take a.toNat).reverse) with hk
    have hrevlen : ((s.text.take a.toNat).reverse).length = a.toNat := by
      rw [List.length_reverse, List.length_take]
      omega
    have hk1 : 1 ≤ k := by
      apply wordUnitLength_pos
      apply hne
      omega
    have hcl := clamp_lower (a + (-1) * (k : Int)) s.text.length (Int.natCast_nonneg _)
    have hcu := clamp_upper (a + (-1) * (k : Int)) s.text.length (Int.natCast_nonneg _)
    rw [getAbs_getCursot s.text _ hcl hcu]
    unfold clamp
    omega

/-- Witness for C10: all six components instantiated at concrete inputs —
the run `"a"` and the document `"ab"` with the cursor at offset 1. -/
theorem word_unit_progress_witness :
    1 ≤ wordUnitLength ['a'] ∧
    ([] : List Char) = [] ∧
    ((reducer { text := ['a', 'b'], cursorPosition := { x := 1, y := 0 } } (.backspace true)).text).length < 2 ∧
    ((reducer { text := ['a', 'b'], cursorPosition := { x := 1, y := 0 } } (.delete true)).text).length < 2 ∧
    getAbsoluteCursorPosition (reducer { text := ['a', 'b'], cursorPosition := { x := 1, y := 0 } } (.moveHorizontal .forward true)) ≠
      getAbsoluteCursorPosition { text := ['a', 'b'], cursorPosition := { x := 1, y := 0 } } ∧
    getAbsoluteCursorPosition (reducer { text := ['a', 'b'], cursorPosition := { x := 1, y := 0 } } (.moveHorizontal .backward true)) ≠
      getAbsoluteCursorPosition { text := ['a', 'b'], cursorPosition := { x := 1, y := 0 } } :=
  ⟨word_unit_progress.1 ['a'] (by decide),
   word_unit_progress.2.1 [] (by decide),
   word_unit_progress.2.2.1 { text := ['a', 'b'], cursorPosition := { x := 1, y := 0 } }
     (by decide) (by decide),
   word_unit_progress.2.2.2.1 { text := ['a', 'b'], cursorPosition := { x := 1, y := 0 } }
     (by decide) (by decide),
   word_unit_progress.2.2.2.2.1 { text := ['a', 'b'], cursorPosition := { x := 1, y := 0 } }
     (by decide) (by decide),
   word_unit_progress.2.2.2.2.2 { text := ['a', 'b'], cursorPosition := { x := 1, y := 0 } }
     (by decide) (by decide)⟩

end RichTextEditor
